import Mathlib

/-!
Verification development for the simpleloadbalancer repository.

Go strings are modelled as lists of characters (`GoStr`); every string
handled by the claims is ASCII, and each `Char` stands for one byte of
the Go string.  Functions from the Go standard library (`strings.Index`,
`strings.TrimSpace`, ...) are translated directly; functions of the
`net` package that parse addresses (`net.ParseIP`, `net.ParseCIDR`,
`net.SplitHostPort`) are kept abstract in a `NetEnv` record, because the
repository only consumes their results.
-/

/-- GoStr models a Go string as a list of characters (one per byte). -/
abbrev GoStr := List Char

/-- goIsSpace models the whitespace test of strings.TrimSpace, restricted
to the ASCII whitespace characters. -/
def goIsSpace (c : Char) : Bool :=
  c == ' ' || c == '\t' || c == '\n' || c == Char.ofNat 11 ||
    c == Char.ofNat 12 || c == '\r'

/-- goIndex models strings.Index: the first position at which t occurs in
s as a contiguous substring; none models the Go return value -1. -/
def goIndex (s t : GoStr) : Option Nat :=
  if t.isPrefixOf s then some 0
  else
    match s with
    | [] => none
    | _ :: rest => (goIndex rest t).map (fun i => i + 1)

/-- goContains models strings.Contains. -/
def goContains (s t : GoStr) : Bool :=
  (goIndex s t).isSome

/-- goTrim models strings.TrimSpace (over ASCII whitespace). -/
def goTrim (s : GoStr) : GoStr :=
  ((s.dropWhile goIsSpace).reverse.dropWhile goIsSpace).reverse

/-- goDropTok models strings.TrimPrefix s t: s with the leading token t
removed when present. -/
def goDropTok (s t : GoStr) : GoStr :=
  if t.isPrefixOf s then s.drop t.length else s

/-- goLower models strings.ToLower on ASCII characters. -/
def goLower (s : GoStr) : GoStr :=
  s.map (fun c => if 'A' ≤ c && c ≤ 'Z' then Char.ofNat (c.toNat + 32) else c)

/-- goEqFold models strings.EqualFold on ASCII strings. -/
def goEqFold (a b : GoStr) : Bool :=
  goLower a == goLower b

/-! Condition operators (pkg/rules/conditions.go).  The Go enums are
uint32 values; they are modelled as Nat. -/

def ConditionOpUnknown : Nat := 0
def ConditionNoOp : Nat := 1
def ConditionOpNotEqualInsensitive : Nat := 2
def ConditionOpEqualInsensitive : Nat := 3
def ConditionOpNotEqual : Nat := 4
def ConditionOpEqual : Nat := 5
def ConditionOpNotContain : Nat := 6
def ConditionOpContain : Nat := 7

/-- ConditionOpStrings is the operator token table of conditions.go, in
its source order. -/
def ConditionOpStrings : List GoStr :=
  [ "unknown".toList, ";".toList, "!~".toList, "=~".toList,
    "!=".toList, "=".toList, "!contains".toList, "contains".toList ]

/-- Condition models the rules.Condition string type. -/
abbrev Condition := GoStr

/-- keyScan is the loop body of Condition.Key: scan the operator tokens in
table order, and at the first token occurring in c return the trimmed
text before its first occurrence. -/
def keyScan (c : GoStr) : List GoStr → GoStr
  | [] => []
  | t :: ts =>
    match goIndex c t with
    | some i => goTrim (c.take i)
    | none => keyScan c ts

/-- Key models Condition.Key: the key part of the condition statement. -/
def Condition.Key (c : Condition) : GoStr :=
  keyScan c (ConditionOpStrings.drop 1)

/-- valScan is the loop body of Condition.Value: scan the operator tokens
in table order, and at the first token occurring in c return the trimmed
text after its first occurrence (with the token itself stripped). -/
def valScan (c : GoStr) : List GoStr → GoStr
  | [] => []
  | t :: ts =>
    match goIndex c t with
    | some i => goTrim (goDropTok (c.drop i) t)
    | none => valScan c ts

/-- Value models Condition.Value: the value part of the condition. -/
def Condition.Value (c : Condition) : GoStr :=
  valScan c (ConditionOpStrings.drop 1)

/-- opScan is the loop body of Condition.Operator: the numeric operator of
the first token of the table occurring in c (k is the code of the first
remaining token). -/
def opScan (c : GoStr) (k : Nat) : List GoStr → Nat
  | [] => ConditionOpUnknown
  | t :: ts =>
    if (goIndex c t).isSome then k else opScan c (k + 1) ts

/-- Operator models Condition.Operator. -/
def Condition.Operator (c : Condition) : Nat :=
  opScan c 1 (ConditionOpStrings.drop 1)

/-- condScanSpec is the single combined scan of the amended claim C4.
Modelled from the spec (amended): one scan over the operator tokens in
the order of the table ( the semicolon first ), returning together the
trimmed key, the operator code and the trimmed value. -/
def condScanSpec (c : GoStr) (k : Nat) : List GoStr → Option (GoStr × Nat × GoStr)
  | [] => none
  | t :: ts =>
    match goIndex c t with
    | some i => some (goTrim (c.take i), k, goTrim (goDropTok (c.drop i) t))
    | none => condScanSpec c (k + 1) ts

/-- parseCondSpec combines key, operator and value into one scan, as the
amended claim C4 describes the parse. -/
def parseCondSpec (c : GoStr) : Option (GoStr × Nat × GoStr) :=
  condScanSpec c 1 (ConditionOpStrings.drop 1)

/-- scansAgree: the three independent scans of Condition.Key,
Condition.Operator and Condition.Value always agree with the combined
scan, over any token list. -/
theorem scansAgree (c : GoStr) : ∀ (toks : List GoStr) (k : Nat),
    (condScanSpec c k toks).elim
      (keyScan c toks = [] ∧ opScan c k toks = ConditionOpUnknown ∧
        valScan c toks = [])
      (fun r => keyScan c toks = r.1 ∧ opScan c k toks = r.2.1 ∧
        valScan c toks = r.2.2) := by
  intro toks
  induction toks with
  | nil => intro k; exact ⟨rfl, rfl, rfl⟩
  | cons t ts ih =>
    intro k
    rcases h : goIndex c t with _ | i
    · have hs : (goIndex c t).isSome = false := by rw [h]; rfl
      simpa [condScanSpec, keyScan, opScan, valScan, h, hs] using ih (k + 1)
    · have hs : (goIndex c t).isSome = true := by rw [h]; rfl
      simp [condScanSpec, keyScan, opScan, valScan, h, hs]

/-- Claim C4 (counterexample).  The claim states that parsing selects the
longest operator in the precedence order !contains, contains, =~, !~, !=,
=, ; (the semicolon last).  On the condition "my_key != some;value" that
order would yield key my_key and operator != ; the code scans the token
table in its own order, which begins with the semicolon, so it returns
key "my_key != some" and the no-op operator instead. -/
theorem c4_parse_counterexample :
    Condition.Key ("my_key != some;value".toList) = ("my_key != some".toList) ∧
    Condition.Operator ("my_key != some;value".toList) = ConditionNoOp ∧
    Condition.Operator ("my_key != some;value".toList) ≠ ConditionOpNotEqual ∧
    Condition.Value ("my_key != some;value".toList) = ("value".toList) := by
  refine ⟨by decide, by decide, by decide, by decide⟩

/-- Claim C4 (amended).  Parsing a condition scans the operator tokens in
the fixed table order ;, !~, =~, !=, =, !contains, contains and selects
the first token that occurs as a substring; the key is the trimmed text
before that token's first occurrence, the value the trimmed text after
it; when no token occurs, key and value are empty and the operator is
unknown.  In particular "my_key != some_value" parses to key my_key,
operator != and value some_value. -/
theorem c4_parse_amended :
    (∀ c : GoStr,
      (parseCondSpec c).elim
        (Condition.Key c = [] ∧ Condition.Operator c = ConditionOpUnknown ∧
          Condition.Value c = [])
        (fun r => Condition.Key c = r.1 ∧ Condition.Operator c = r.2.1 ∧
          Condition.Value c = r.2.2)) ∧
    Condition.Key ("my_key != some_value".toList) = ("my_key".toList) ∧
    Condition.Operator ("my_key != some_value".toList) = ConditionOpNotEqual ∧
    Condition.Value ("my_key != some_value".toList) = ("some_value".toList) := by
  refine ⟨fun c => scansAgree c _ 1, by decide, by decide, by decide⟩

/-! Condition keys (pkg/rules/conditionkeys, part of the rules package). -/

def ConditionKeyUnknown : Nat := 0
def ConditionKeyHost : Nat := 1
def ConditionKeyMethod : Nat := 2
def ConditionKeyPath : Nat := 3
def ConditionKeySourceIp : Nat := 4
def ConditionKeyAlways : Nat := 5

/-- ConditionKeyStrings is the key table of the rules package. -/
def ConditionKeyStrings : List GoStr :=
  [ "unknown".toList, "host-header".toList, "http-request-method".toList,
    "path-pattern".toList, "source-ip".toList, "always".toList ]

/-- keyFind is the loop of NewConditionKey: the index of the first table
entry that equals v under case folding. -/
def keyFind (v : GoStr) (k : Nat) : List GoStr → Nat
  | [] => ConditionKeyUnknown
  | s :: ss => if goEqFold s v then k else keyFind v (k + 1) ss

/-- NewConditionKey models rules.NewConditionKey. -/
def NewConditionKey (v : GoStr) : Nat :=
  keyFind v 0 ConditionKeyStrings

/-! String comparison helpers of conditions.go.  The rule evaluator only
ever passes Go strings to Equal/NotEqual/Contains/NotContains, for which
AreEqual is plain string equality and DoesContain is strings.Contains
with ok = true; the translations below are those instantiations. -/

/-- Equal models rules.Equal on strings (AreEqual, byte-exact). -/
def Equal (a b : GoStr) : Bool := a == b

/-- NotEqual models rules.NotEqual on strings. -/
def NotEqual (a b : GoStr) : Bool := !(Equal a b)

/-- Contains models rules.Contains on strings (substring test on a). -/
def Contains (a b : GoStr) : Bool := goContains a b

/-- NotContains models rules.NotContains on strings. -/
def NotContains (a b : GoStr) : Bool := !(Contains a b)

/-- matchOp models the rules.match function (match is a Lean keyword);
the insensitive operators fall through to the byte-exact ones exactly as
in the source. -/
def matchOp (expected actual : GoStr) (op : Nat) : Bool :=
  if op == ConditionOpEqualInsensitive || op == ConditionOpEqual then
    Equal expected actual
  else if op == ConditionOpNotEqualInsensitive || op == ConditionOpNotEqual then
    NotEqual expected actual
  else if op == ConditionOpContain then Contains actual expected
  else if op == ConditionOpNotContain then NotContains actual expected
  else false

/-! The net-package layer.  A parsed net.IP is abstracted to its 32-bit
limbs (the value NewIPAddr computes from it) and its String() rendering;
a parsed *net.IPNet to the limbs of its network number and mask. -/

/-- GoIp models a non-nil parsed net.IP. -/
structure GoIp where
  limbs : List Nat
  render : GoStr
deriving DecidableEq

/-- GoCidr models a parsed *net.IPNet, with network number and mask
already converted to 32-bit limbs. -/
structure GoCidr where
  number : List Nat
  mask : List Nat
deriving DecidableEq

/-- NetEnv abstracts the parsing functions of the net package used by the
rules package; none models a parse failure (nil IP or error). -/
structure NetEnv where
  parseIp : GoStr → Option GoIp
  parseCidr : GoStr → Option GoCidr
  splitHostPort : GoStr → Option (GoStr × GoStr)

/-- ipLimbs models rules.NewIPAddr on a possibly-nil net.IP: nil maps to
the empty limb list. -/
def ipLimbs : Option GoIp → List Nat
  | none => []
  | some ip => ip.limbs

/-- ipString models net.IP.String(); the nil IP renders as "<nil>". -/
def ipString : Option GoIp → GoStr
  | none => "<nil>".toList
  | some ip => ip.render

/-- NetworkContains models rules.NetworkContains.  The all-empty limb
case (where Go would index out of bounds) is unreachable for parsed
CIDRs, whose masks have 1 or 4 limbs; it is mapped to false. -/
def NetworkContains (c : GoCidr) (oip : Option GoIp) : Bool :=
  let addr := ipLimbs oip
  if c.mask.length != addr.length then false
  else
    match addr, c.number, c.mask with
    | a0 :: arest, n0 :: nrest, m0 :: mrest =>
      if (a0 &&& m0) != n0 then false
      else if addr.length == 4 then
        ((arest.getD 0 0 &&& mrest.getD 0 0) == nrest.getD 0 0) &&
        ((arest.getD 1 0 &&& mrest.getD 1 0) == nrest.getD 1 0) &&
        ((arest.getD 2 0 &&& mrest.getD 2 0) == nrest.getD 2 0)
      else true
    | _, _, _ => false

/-- IsCIDR models rules.IsCIDR: the string contains a slash and parses as
a CIDR range. -/
def IsCIDR (env : NetEnv) (s : GoStr) : Bool :=
  goContains s ("/".toList) && (env.parseCidr s).isSome

/-- boolStr models fmt.Sprintf("%t", b). -/
def boolStr (b : Bool) : GoStr :=
  if b then "true".toList else "false".toList

/-- matchCIDR models rules.matchCIDR. -/
def matchCIDR (env : NetEnv) (netStr ipStr : GoStr) (op : Nat) : Bool :=
  match env.parseCidr netStr with
  | none => false
  | some n => matchOp ("true".toList) (boolStr (NetworkContains n (env.parseIp ipStr))) op

/-- rmRepeatAux is the loop of rmRepeatRune, carrying the last written
character (initially the zero rune). -/
def rmRepeatAux (c : Char) : List Char → Char → List Char
  | [], _ => []
  | r :: rs, last =>
    if (r != last || last != c) || r == Char.ofNat 0 then
      r :: rmRepeatAux c rs r
    else rmRepeatAux c rs last

/-- rmRepeatRune models rules.rmRepeatRune: remove successive duplicates
of the character c. -/
def rmRepeatRune (s : GoStr) (c : Char) : GoStr :=
  rmRepeatAux c s (Char.ofNat 0)

/-- matchCore is the recursion of rules.matchStrings after the initial
wildcard collapse.  The Go function re-applies rmRepeatRune on every
recursive call; on an already collapsed pattern (and its suffixes, which
stay collapsed) that is the identity, so the recursion is factored here
over the collapsed pattern. -/
def matchCore (p s : List Char) : Bool :=
  if p = [ '*' ] then true
  else if p = [] then s.isEmpty
  else
    match p, s with
    | _, [] => false
    | [], _ :: _ => false
    | c :: ps, a :: ss =>
      if c == '?' || c == a then matchCore ps ss
      else if c == '*' then matchCore ps (a :: ss) || matchCore (c :: ps) ss
      else false
termination_by p.length + s.length
decreasing_by
  all_goals simp_wf
  all_goals omega

/-- matchStrings models rules.matchStrings: wildcard matching where the
pattern character * stands for zero or more characters and ? for one. -/
def matchStrings (expected actual : GoStr) : Bool :=
  matchCore (rmRepeatRune expected '*') actual

/-- matchPath models rules.matchPath. -/
def matchPath (expected actual : GoStr) (op : Nat) : Bool :=
  matchOp ("true".toList) (boolStr (matchStrings expected actual)) op

/-- GoRequest models the parts of an http.Request read by the rules
package; the header fields hold what Header.Get returns for the two
header names the code reads (the empty string when absent). -/
structure GoRequest where
  host : GoStr
  method : GoStr
  urlPath : GoStr
  remoteAddr : GoStr
  hXRealIp : GoStr
  hXForwardFor : GoStr

/-- firstIp is the X-FORWARD-FOR loop of getIpFromRequest: the first
comma-separated part that parses as an IP. -/
def firstIp (env : NetEnv) : List GoStr → Option GoIp
  | [] => none
  | p :: ps =>
    match env.parseIp p with
    | some ip => some ip
    | none => firstIp env ps

/-- getIpFromRequest models rules.getIpFromRequest. -/
def getIpFromRequest (env : NetEnv) (r : GoRequest) : Option GoIp :=
  match env.parseIp r.hXRealIp with
  | some ip => some ip
  | none =>
    match firstIp env (r.hXForwardFor.splitOn ',') with
    | some ip => some ip
    | none =>
      match env.splitHostPort r.remoteAddr with
      | some hp => env.parseIp hp.1
      | none => none

/-- matchRequest models rules.matchRequest (the newest rules.go, in which
path conditions go through matchPath). -/
def matchRequest (env : NetEnv) (cond : Condition) (req : GoRequest) : Bool :=
  let expected := Condition.Value cond
  let op := Condition.Operator cond
  let k := NewConditionKey (Condition.Key cond)
  if k == ConditionKeyHost then matchOp expected req.host op
  else if k == ConditionKeyMethod then matchOp expected req.method op
  else if k == ConditionKeyPath then matchPath expected req.urlPath op
  else if k == ConditionKeySourceIp then
    let actual := ipString (getIpFromRequest env req)
    if IsCIDR env expected then matchCIDR env expected actual op
    else matchOp expected actual op
  else if k == ConditionKeyAlways then true
  else false

/-! Rule actions and the rule matcher (pkg/rules/rules.go). -/

def RuleActionUnknown : Nat := 0
def RuleActionForward : Nat := 1
def RuleActionRedirect : Nat := 2

/-- Rule models rules.Rule: an action and a list of condition groups. -/
structure Rule where
  Action : Nat
  Conditions : List (List Condition)

/-- GroupOutcome is the outcome of the inner loop of Rule.Matches on one
condition group: an always key returns from the whole function, a
matching condition sets good and breaks, and otherwise the group fails. -/
inductive GroupOutcome
  | always
  | pass
  | fail
deriving DecidableEq

/-- scanGroup is the inner loop of Rule.Matches over one group. -/
def scanGroup (env : NetEnv) (req : GoRequest) : List Condition → GroupOutcome
  | [] => .fail
  | c :: cs =>
    if NewConditionKey (Condition.Key c) == ConditionKeyAlways then .always
    else if matchRequest env c req then .pass
    else scanGroup env req cs

/-- matchGroups is the outer loop of Rule.Matches over the groups. -/
def matchGroups (env : NetEnv) (req : GoRequest) : List (List Condition) → Bool
  | [] => true
  | g :: gs =>
    match scanGroup env req g with
    | .always => true
    | .pass => matchGroups env req gs
    | .fail => false

/-- Matches models Rule.Matches. -/
def Rule.Matches (env : NetEnv) (r : Rule) (req : GoRequest) : Bool :=
  matchGroups env req r.Conditions

/-- Claim C5 (code bug).  The source declares the operators =~ and !~ as
the case-insensitive variants of = and != (and the repository's own
TestMatchPath expects matchPath "/hello" "/HELLO" with =~ to succeed),
but in rules.match both insensitive cases fall through to the byte-exact
comparisons, so =~ and !~ behave exactly like = and != and the expected
case-insensitive match fails. -/
theorem c5_insensitive_ops_bug :
    matchOp ("example.com".toList) ("EXAMPLE.COM".toList)
      ConditionOpEqualInsensitive = false ∧
    matchOp ("example.com".toList) ("EXAMPLE.COM".toList)
      ConditionOpNotEqualInsensitive = true ∧
    matchPath ("/hello".toList) ("/HELLO".toList)
      ConditionOpEqualInsensitive = false ∧
    (∀ e a : GoStr,
      matchOp e a ConditionOpEqualInsensitive = matchOp e a ConditionOpEqual) ∧
    (∀ e a : GoStr,
      matchOp e a ConditionOpNotEqualInsensitive =
        matchOp e a ConditionOpNotEqual) := by
  refine ⟨by decide, by decide, ?_, fun e a => rfl, fun e a => rfl⟩
  simp [matchPath, matchStrings, matchCore, rmRepeatRune, rmRepeatAux,
    matchOp, Equal, boolStr]

/-! The enum string tables with an out-of-range clamp (C10).  Each String
method is modelled as returning an optional string: none models the Go
panic on an out-of-range table index. -/

def ResponseFormatUnknown : Nat := 0
def ResponseFormatHtml : Nat := 1
def ResponseFormatJson : Nat := 2
def ResponseFormatPlain : Nat := 3

/-- ResponseFormatStrings is the table of pkg/targets/responseformat.go. -/
def ResponseFormatStrings : List GoStr :=
  [ "unknown".toList, "html".toList, "json".toList, "plain".toList ]

/-- ResponseFormatString models ResponseFormat.String(): clamp the value
to unknown when it exceeds the table length, then index the table. -/
def ResponseFormatString (f : Nat) : Option GoStr :=
  let i := if f > ResponseFormatStrings.length then ResponseFormatUnknown else f
  ResponseFormatStrings.get? i

/-- RuleActionStrings is the table of pkg/rules/ruleactions.go. -/
def RuleActionStrings : List GoStr :=
  [ "unknown".toList, "forward".toList, "redirect".toList ]

/-- RuleActionString models RuleAction.String(). -/
def RuleActionString (a : Nat) : Option GoStr :=
  let i := if a > RuleActionStrings.length then RuleActionUnknown else a
  RuleActionStrings.get? i

/-- ConditionKeyString models ConditionKey.String(). -/
def ConditionKeyString (k : Nat) : Option GoStr :=
  let i := if k > ConditionKeyStrings.length then ConditionKeyUnknown else k
  ConditionKeyStrings.get? i

/-- Claim C10 (code bug).  Each String() method clamps only values
strictly greater than the table length, so the value equal to the length
(4 for ResponseFormat, 3 for RuleAction, 6 for ConditionKey) escapes the
clamp and indexes one past the end of the table: an out-of-range access
(a Go panic), while every larger value is clamped to "unknown". -/
theorem c10_string_oob_bug :
    ResponseFormatString 4 = none ∧
    RuleActionString 3 = none ∧
    ConditionKeyString 6 = none ∧
    ResponseFormatString 5 = some ("unknown".toList) ∧
    RuleActionString 4 = some ("unknown".toList) ∧
    ConditionKeyString 7 = some ("unknown".toList) := by
  refine ⟨rfl, rfl, rfl, rfl, rfl, rfl⟩

/-! Claim C1: the structure of Rule.Matches. -/

/-- condHit holds when the scan of Rule.Matches does not step past the
condition: its key is always, or it matches the request. -/
def condHit (env : NetEnv) (req : GoRequest) (c : Condition) : Bool :=
  NewConditionKey (Condition.Key c) == ConditionKeyAlways ||
    matchRequest env c req

/-- groupHit holds when some condition of the group hits. -/
def groupHit (env : NetEnv) (req : GoRequest) (g : List Condition) : Bool :=
  g.any (condHit env req)

/-- firstAlwaysSpec describes, in the words of the amended claim C1, a
group whose scan reaches an always condition before any condition that
hits: the group splits as cs1 ++ c :: cs2 with c an always condition and
nothing in cs1 hitting. -/
def firstAlwaysSpec (env : NetEnv) (req : GoRequest) (g : List Condition) : Prop :=
  ∃ cs1 c cs2, g = cs1 ++ c :: cs2 ∧
    NewConditionKey (Condition.Key c) = ConditionKeyAlways ∧
    ∀ c2 ∈ cs1, condHit env req c2 = false

/-- scanGroupAlways: the inner loop of Rule.Matches returns from the
whole function exactly on the groups of firstAlwaysSpec. -/
theorem scanGroupAlways (env : NetEnv) (req : GoRequest) :
    ∀ g : List Condition,
      scanGroup env req g = GroupOutcome.always ↔ firstAlwaysSpec env req g := by
  intro g
  induction g with
  | nil =>
    constructor
    · intro h; exact absurd h (by simp [scanGroup])
    · rintro ⟨cs1, c, cs2, h, -, -⟩
      exact absurd h (by cases cs1 <;> simp)
  | cons c cs ih =>
    by_cases hA : NewConditionKey (Condition.Key c) = ConditionKeyAlways
    · constructor
      · intro _
        exact ⟨[], c, cs, rfl, hA, by intro c2 h2; cases h2⟩
      · intro _
        simp [scanGroup, hA]
    · by_cases hm : matchRequest env c req
      · constructor
        · intro h
          have : GroupOutcome.pass = GroupOutcome.always := by
            simpa [scanGroup, hA, hm] using h
          cases this
        · rintro ⟨cs1, c0, cs2, hsplit, h0, hnone⟩
          cases cs1 with
          | nil =>
            cases hsplit
            exact absurd h0 hA
          | cons d ds =>
            have hd : condHit env req c = false := by
              have := hnone d (by simp)
              have hdc : d = c := by
                have := congrArg (fun l => l.headI) hsplit
                simpa using this.symm
              rw [← hdc]; exact this
            have : condHit env req c = true := by
              simp [condHit, hm]
            rw [hd] at this
            cases this
      · have hstep : scanGroup env req (c :: cs) = scanGroup env req cs := by
          simp [scanGroup, hA, hm]
        rw [hstep, ih]
        constructor
        · rintro ⟨cs1, c0, cs2, hsplit, h0, hnone⟩
          refine ⟨c :: cs1, c0, cs2, by rw [hsplit]; rfl, h0, ?_⟩
          intro c2 h2
          rcases List.mem_cons.mp h2 with h2 | h2
          · rw [h2]; simp [condHit, hA, hm]
          · exact hnone c2 h2
        · rintro ⟨cs1, c0, cs2, hsplit, h0, hnone⟩
          cases cs1 with
          | nil =>
            cases hsplit
            exact absurd h0 hA
          | cons d ds =>
            have hdc : d = c := by
              have := congrArg (fun l => l.headI) hsplit
              simpa using this.symm
            have htail : cs = ds ++ c0 :: cs2 := by
              have := congrArg List.tail hsplit
              simpa using this
            exact ⟨ds, c0, cs2, htail, h0,
              fun c2 h2 => hnone c2 (by simp [h2])⟩

/-- scanGroupFail: the inner loop fails exactly on the groups in which no
condition hits. -/
theorem scanGroupFail (env : NetEnv) (req : GoRequest) :
    ∀ g : List Condition,
      scanGroup env req g = GroupOutcome.fail ↔ groupHit env req g = false := by
  intro g
  induction g with
  | nil => simp [scanGroup, groupHit]
  | cons c cs ih =>
    by_cases hA : NewConditionKey (Condition.Key c) = ConditionKeyAlways
    · simp [scanGroup, groupHit, condHit, hA]
    · by_cases hm : matchRequest env c req
      · simp [scanGroup, groupHit, condHit, hA, hm]
      · simp [scanGroup, groupHit, condHit, hA, hm, ih]

/-- matchGroupsIff: the outer loop of Rule.Matches succeeds exactly when
every group hits, or some group reaches an always condition first while
every group before it hits. -/
theorem matchGroupsIff (env : NetEnv) (req : GoRequest) :
    ∀ gs : List (List Condition),
      matchGroups env req gs = true ↔
        ((∀ g ∈ gs, groupHit env req g = true) ∨
          ∃ gs1 g gs2, gs = gs1 ++ g :: gs2 ∧ firstAlwaysSpec env req g ∧
            ∀ g2 ∈ gs1, groupHit env req g2 = true) := by
  intro gs
  induction gs with
  | nil =>
    constructor
    · intro _
      exact Or.inl (by intro g h; cases h)
    · intro _; rfl
  | cons g gs ih =>
    rcases hsc : scanGroup env req g with _ | _ | _
    · constructor
      · intro _
        exact Or.inr ⟨[], g, gs, rfl, (scanGroupAlways env req g).mp hsc,
          by intro g2 h2; cases h2⟩
      · intro _
        simp [matchGroups, hsc]
    · have hg : groupHit env req g = true := by
        rcases h : groupHit env req g with _ | _
        · exact absurd hsc (by rw [(scanGroupFail env req g).mpr h]; intro hc; cases hc)
        · rfl
      have hstep : matchGroups env req (g :: gs) = matchGroups env req gs := by
        simp [matchGroups, hsc]
      rw [hstep, ih]
      constructor
      · rintro (hall | ⟨gs1, g0, gs2, hsplit, h0, hpre⟩)
        · exact Or.inl (by
            intro g2 h2
            rcases List.mem_cons.mp h2 with h2 | h2
            · rw [h2]; exact hg
            · exact hall g2 h2)
        · exact Or.inr ⟨g :: gs1, g0, gs2, by rw [hsplit]; rfl, h0, by
            intro g2 h2
            rcases List.mem_cons.mp h2 with h2 | h2
            · rw [h2]; exact hg
            · exact hpre g2 h2⟩
      · rintro (hall | ⟨gs1, g0, gs2, hsplit, h0, hpre⟩)
        · exact Or.inl (fun g2 h2 => hall g2 (List.mem_cons.mpr (Or.inr h2)))
        · cases gs1 with
          | nil =>
            cases hsplit
            have h2 := (scanGroupAlways env req g).mpr h0
            rw [hsc] at h2
            cases h2
          | cons d ds =>
            have hdg : d = g := by
              have := congrArg (fun l => l.headI) hsplit
              simpa using this.symm
            have htail : gs = ds ++ g0 :: gs2 := by
              have := congrArg List.tail hsplit
              simpa using this
            exact Or.inr ⟨ds, g0, gs2, htail, h0,
              fun g2 h2 => hpre g2 (by simp [h2])⟩
    · have hg : groupHit env req g = false := (scanGroupFail env req g).mp hsc
      constructor
      · intro h
        exact absurd h (by simp [matchGroups, hsc])
      · rintro (hall | ⟨gs1, g0, gs2, hsplit, h0, hpre⟩)
        · rw [hall g (by simp)] at hg
          cases hg
        · cases gs1 with
          | nil =>
            cases hsplit
            have h2 := (scanGroupAlways env req g).mpr h0
            rw [hsc] at h2
            cases h2
          | cons d ds =>
            have hdg : d = g := by
              have := congrArg (fun l => l.headI) hsplit
              simpa using this.symm
            have := hpre d (by simp)
            rw [hdg, hg] at this
            cases this

/-- Claim C1 (amended).  Rule.Matches returns true iff either every
outer group contains a condition that hits the request (a condition with
key always counting as a hit), or some group reaches an always condition
before any hitting condition while every group before it contains a
hitting condition.  An always condition in a group that comes after a
non-matching group does not force a match: the scan returns false at the
failing group before ever seeing it. -/
theorem c1_matches_amended (env : NetEnv) (r : Rule) (req : GoRequest) :
    Rule.Matches env r req = true ↔
      ((∀ g ∈ r.Conditions, groupHit env req g = true) ∨
        ∃ gs1 g gs2, r.Conditions = gs1 ++ g :: gs2 ∧
          firstAlwaysSpec env req g ∧
          ∀ g2 ∈ gs1, groupHit env req g2 = true) :=
  matchGroupsIff env req r.Conditions

/-- envC1 is a network environment in which nothing parses; the C1
counterexample involves no source-ip conditions, so the choice does not
matter. -/
def envC1 : NetEnv :=
  ⟨fun _ => none, fun _ => none, fun _ => none⟩

/-- reqC1 is a request whose host header is b. -/
def reqC1 : GoRequest :=
  ⟨ "b".toList, "GET".toList, "/".toList, [], [], []⟩

/-- ruleC1 is a rule whose first group only matches host a, and whose
second group holds an always condition. -/
def ruleC1 : Rule :=
  ⟨RuleActionForward, [ [ "host-header = a".toList ], [ "always;".toList ] ]⟩

/-- Claim C1 (counterexample).  ruleC1 contains a condition with the
always key (in its second group), so by the claim it should match every
request unconditionally; but on a request with host b the first group
fails and Rule.Matches returns false before reaching the always
condition. -/
theorem c1_matches_counterexample :
    Rule.Matches envC1 ruleC1 reqC1 = false ∧
    (∃ g ∈ ruleC1.Conditions, ∃ c ∈ g,
      NewConditionKey (Condition.Key c) = ConditionKeyAlways) := by
  refine ⟨by decide, ?_⟩
  refine ⟨[ "always;".toList ], by decide, "always;".toList, by decide, by decide⟩

/-! Claim C7: source-ip conditions on requests without an extractable IP. -/

/-- negOp names the three negated operators, the ones that succeed when
their underlying comparison fails. -/
def negOp (op : Nat) : Bool :=
  op == ConditionOpNotEqualInsensitive || op == ConditionOpNotEqual ||
    op == ConditionOpNotContain

/-- cmpNil states, per operator, how a condition value compares against
the literal rendering of the nil IP, in the words of the amended claim
C7: the equality operators demand the value "<nil>" itself, the negated
equality operators any other value, and the containment operators test
the value against the text "<nil>". -/
def cmpNil (v : GoStr) (op : Nat) : Bool :=
  if op == ConditionOpEqualInsensitive || op == ConditionOpEqual then
    v == "<nil>".toList
  else if op == ConditionOpNotEqualInsensitive || op == ConditionOpNotEqual then
    !(v == "<nil>".toList)
  else if op == ConditionOpContain then goContains ("<nil>".toList) v
  else if op == ConditionOpNotContain then !(goContains ("<nil>".toList) v)
  else false

/-- matchTrueFalse: comparing the strings "true" and "false" under any
operator succeeds exactly for the negated operators. -/
theorem matchTrueFalse (op : Nat) :
    matchOp ("true".toList) ("false".toList) op = negOp op := by
  match op with
  | 0 => rfl
  | 1 => rfl
  | 2 => rfl
  | 3 => rfl
  | 4 => rfl
  | 5 => rfl
  | 6 => rfl
  | 7 => rfl
  | n + 8 => rfl

/-- matchNilStr: comparing any value against the rendered nil IP is the
per-operator comparison cmpNil. -/
theorem matchNilStr (v : GoStr) (op : Nat) :
    matchOp v ("<nil>".toList) op = cmpNil v op := rfl

/-- firstIpNone: the X-FORWARD-FOR loop yields nothing when no part
parses. -/
theorem firstIpNone (env : NetEnv) :
    ∀ l : List GoStr, (∀ p ∈ l, env.parseIp p = none) → firstIp env l = none := by
  intro l
  induction l with
  | nil => intro _; rfl
  | cons p ps ih =>
    intro h
    have hp := h p (by simp)
    simp only [firstIp, hp]
    exact ih (fun q hq => h q (by simp [hq]))

/-- Claim C7 (amended).  When nothing about a request parses as an IP
( the X-REAL-IP header, every comma-split X-FORWARD-FOR part, and the
host part of the remote address all fail ), client-IP extraction returns
nil; but a source-ip condition is then NOT always non-matching: the nil
IP is rendered as the string "<nil>" before comparing, so a CIDR-shaped
value behaves as a failed membership test (making the negated operators
!=, !~ and !contains match) and any other value is compared against the
literal text "<nil>" (so = matches the value "<nil>" itself, != matches
every other value, and the containment operators test against that
text). -/
theorem c7_sourceip_amended (env : NetEnv) (req : GoRequest)
    (h1 : env.parseIp req.hXRealIp = none)
    (h2 : ∀ p ∈ req.hXForwardFor.splitOn ',', env.parseIp p = none)
    (h3 : ∀ hp, env.splitHostPort req.remoteAddr = some hp →
      env.parseIp hp.1 = none)
    (h4 : env.parseIp ("<nil>".toList) = none)
    (h5 : ∀ s c, env.parseCidr s = some c → c.mask ≠ []) :
    getIpFromRequest env req = none ∧
    ∀ cond : Condition,
      NewConditionKey (Condition.Key cond) = ConditionKeySourceIp →
      matchRequest env cond req =
        (if IsCIDR env (Condition.Value cond) then
          negOp (Condition.Operator cond)
        else cmpNil (Condition.Value cond) (Condition.Operator cond)) := by
  have hip : getIpFromRequest env req = none := by
    simp only [getIpFromRequest, h1, firstIpNone env _ h2]
    rcases hsp : env.splitHostPort req.remoteAddr with _ | hp
    · rfl
    · exact h3 hp hsp
  refine ⟨hip, ?_⟩
  intro cond hkey
  have hne1 : (ConditionKeySourceIp == ConditionKeyHost) = false := rfl
  have hne2 : (ConditionKeySourceIp == ConditionKeyMethod) = false := rfl
  have hne3 : (ConditionKeySourceIp == ConditionKeyPath) = false := rfl
  have hne4 : (ConditionKeySourceIp == ConditionKeySourceIp) = true := rfl
  simp only [matchRequest, hkey, hne1, hne2, hne3, hne4, Bool.false_eq_true,
    if_false, if_true, hip, ipString]
  rcases hc : IsCIDR env (Condition.Value cond) with _ | _
  · simp only [if_false, Bool.false_eq_true]
    exact matchNilStr _ _
  · simp only [if_true]
    have hsome : (env.parseCidr (Condition.Value cond)).isSome = true :=
      Bool.and_elim_right hc
    rcases hcd : env.parseCidr (Condition.Value cond) with _ | c
    · rw [hcd] at hsome; cases hsome
    · have hmask : c.mask ≠ [] := h5 _ _ hcd
      have hnc : NetworkContains c (env.parseIp ("<nil>".toList)) = false := by
        rw [h4]
        have hlen : c.mask.length ≠ 0 := by
          intro h0
          exact hmask (List.eq_nil_of_length_eq_zero h0)
        simp [NetworkContains, ipLimbs, hlen]
      simp only [matchCIDR, hcd, hnc, boolStr, if_false, Bool.false_eq_true]
      exact matchTrueFalse _

/-- envC7 is a network environment in which nothing parses as an IP or a
CIDR range. -/
def envC7 : NetEnv :=
  ⟨fun _ => none, fun _ => none, fun _ => none⟩

/-- reqC7 is a request whose headers and remote address hold no parseable
IP at all. -/
def reqC7 : GoRequest :=
  ⟨ "example.com".toList, "GET".toList, "/".toList, "nonsense".toList,
    "bogus".toList, "alpha,beta".toList⟩

/-- Claim C7 (counterexample).  On a request from which no client IP can
be extracted, the claim says every source-ip condition evaluates as
non-matching; but the condition source-ip != 10.0.0.1 matches, because
the nil IP is rendered as the string "<nil>", which differs from
10.0.0.1. -/
theorem c7_sourceip_counterexample :
    getIpFromRequest envC7 reqC7 = none ∧
    matchRequest envC7 ("source-ip != 10.0.0.1".toList) reqC7 = true := by
  refine ⟨by decide, by decide⟩

/-- Claim C7 (witness): the amended theorem applied to the concrete
environment envC7 and request reqC7, on the positive-operator condition
source-ip = 10.0.0.1, which indeed does not match. -/
theorem c7_sourceip_witness :
    getIpFromRequest envC7 reqC7 = none ∧
    matchRequest envC7 ("source-ip = 10.0.0.1".toList) reqC7 = false := by
  have h := c7_sourceip_amended envC7 reqC7 rfl (fun p _ => rfl)
    (fun hp h => by cases h) rfl (fun s c h => by cases h)
  refine ⟨h.1, ?_⟩
  have h2 := h.2 ("source-ip = 10.0.0.1".toList) (by decide)
  rw [h2]
  decide

/-! The leaky-bucket limiter (pkg/ratelimit/ratelimit.go).  All Go values
involved (state, rate, capacity, UnixNano timestamps) are int64; int64
arithmetic is modelled on Int with an explicit two's-complement wrap
applied at every addition and subtraction. -/

/-- wrap64 reduces an integer to the int64 range, as Go addition and
subtraction of int64 values do on overflow. -/
def wrap64 (x : Int) : Int :=
  (x + 2 ^ 63) % 2 ^ 64 - 2 ^ 63

/-- goDiv models Go int64 division, which truncates toward zero. -/
def goDiv (a b : Int) : Int := Int.tdiv a b

/-- nextStep is the step computation of leakyBucketLimiter.Next: queue
behind an outstanding deadline, or restart from now, enforcing the
inter-step gap. -/
def nextStep (rate st now : Int) : Int :=
  if now < st then wrap64 (st + rate)
  else
    let since := wrap64 (now - st)
    if since < rate then wrap64 (now + wrap64 (rate - since)) else now

/-- nextCall models leakyBucketLimiter.Next at one instant: from the
stored state st and the clock value now it returns the wait duration,
the new stored state, and whether the call admitted (true) or returned
the max-capacity error (false). -/
def nextCall (rate cap st now : Int) : Int × Int × Bool :=
  let step := nextStep rate st now
  let next := wrap64 (step - now)
  if goDiv next rate ≤ cap then (next, step, true) else (next, st, false)

/-- bucketStates: the stored state after n calls of Next on a freshly
created limiter (state 0), all at the same instant now. -/
def bucketStates (rate cap now : Int) : Nat → Int
  | 0 => 0
  | n + 1 => (nextCall rate cap (bucketStates rate cap now n) now).2.1

/-- wrap64Id: the wrap is the identity inside the int64 range. -/
theorem wrap64Id (x : Int) (h1 : -(2 ^ 63) ≤ x) (h2 : x < 2 ^ 63) :
    wrap64 x = x := by
  unfold wrap64
  omega

/-- ratioEq: Go division of a value k*rate + q with 0 ≤ q < rate gives
exactly k. -/
theorem ratioEq (rate q k : Int) (hr : 0 < rate) (hq0 : 0 ≤ q)
    (hqr : q < rate) (hk : 0 ≤ k) :
    goDiv (k * rate + q) rate = k := by
  unfold goDiv
  have hnn : 0 ≤ k * rate + q := by
    have := mul_nonneg hk hr.le
    omega
  rw [Int.tdiv_eq_ediv hnn hr.le]
  rw [show k * rate + q = q + k * rate from by ring]
  rw [Int.add_mul_ediv_right _ _ (by omega : rate ≠ 0)]
  rw [Int.ediv_eq_zero_of_lt hq0 hqr]
  omega

/-- nextStepGt: as long as nothing overflows, the computed step strictly
exceeds the stored state whenever the rate is positive. -/
theorem nextStepGt (rate st now : Int) (hr : 0 < rate) (hst : 0 ≤ st)
    (hnow : 0 ≤ now) (b1 : st + rate < 2 ^ 63) (b2 : now + rate < 2 ^ 63) :
    st < nextStep rate st now := by
  unfold nextStep
  by_cases h1 : now < st
  · rw [if_pos h1, wrap64Id _ (by omega) (by omega)]
    omega
  · rw [if_neg h1]
    have hsince : wrap64 (now - st) = now - st := wrap64Id _ (by omega) (by omega)
    simp only [hsince]
    by_cases h2 : now - st < rate
    · rw [if_pos h2, wrap64Id (rate - (now - st)) (by omega) (by omega),
        wrap64Id _ (by omega) (by omega)]
      omega
    · rw [if_neg h2]
      omega

/-- Claim C8.  With a positive rate, whenever Next admits it stores a
state strictly greater than the one it read, and whenever it overflows
it leaves the state unchanged; since the state is only ever written by
admitted calls, over any sequence of Next calls the admitted calls store
strictly increasing deadlines.  The bounds keep all int64 arithmetic of
the call inside the representable range (states and UnixNano clock
values are nonnegative in every reachable execution). -/
theorem c8_monotonic_deadline (rate cap st now : Int) (hr : 0 < rate)
    (hst : 0 ≤ st) (hnow : 0 ≤ now)
    (b1 : st + rate < 2 ^ 63) (b2 : now + rate < 2 ^ 63) :
    ((nextCall rate cap st now).2.2 = true →
      st < (nextCall rate cap st now).2.1) ∧
    ((nextCall rate cap st now).2.2 = false →
      (nextCall rate cap st now).2.1 = st) := by
  have hgt := nextStepGt rate st now hr hst hnow b1 b2
  by_cases hif : goDiv (wrap64 (nextStep rate st now - now)) rate ≤ cap
  · have heq : nextCall rate cap st now =
        (wrap64 (nextStep rate st now - now), nextStep rate st now, true) := by
      unfold nextCall
      rw [if_pos hif]
    rw [heq]
    refine ⟨fun _ => hgt, fun h => ?_⟩
    cases h
  · have heq : nextCall rate cap st now =
        (wrap64 (nextStep rate st now - now), st, false) := by
      unfold nextCall
      rw [if_neg hif]
    rw [heq]
    refine ⟨fun h => ?_, fun _ => rfl⟩
    cases h

/-- Claim C8 (witness): the theorem at rate 2, capacity 5, stored state
0 and clock value 7; the call admits and stores 7 > 0. -/
theorem c8_monotonic_witness :
    (nextCall 2 5 0 7).2.2 = true ∧ (0 : Int) < (nextCall 2 5 0 7).2.1 := by
  have h := c8_monotonic_deadline 2 5 0 7 (by omega) (by omega) (by omega)
    (by omega) (by omega)
  have hadm : (nextCall 2 5 0 7).2.2 = true := by decide
  exact ⟨hadm, h.1 hadm⟩

/-- nextStepZero: from the fresh state 0, at a positive instant now, the
computed step is max now rate. -/
theorem nextStepZero (rate now : Int) (hr : 0 < rate) (hnow : 0 < now)
    (hub : max now rate + rate < 2 ^ 63) :
    nextStep rate 0 now = max now rate := by
  have hM1 : now ≤ max now rate := le_max_left now rate
  have hM2 : rate ≤ max now rate := le_max_right now rate
  unfold nextStep
  rw [if_neg (by omega : ¬ now < 0)]
  have hsince : wrap64 (now - 0) = now := by
    simpa using wrap64Id (now - 0) (by omega) (by omega)
  simp only [hsince]
  by_cases h2 : now < rate
  · rw [if_pos h2, wrap64Id (rate - now) (by omega) (by omega),
      wrap64Id _ (by omega) (by omega)]
    omega
  · rw [if_neg h2]
    omega

/-- nextStepFromM: from a state of the form max now rate + (k-1)*rate
(the state after k fresh-bucket calls at instant now), the computed step
is max now rate + k*rate. -/
theorem nextStepFromM (rate now k : Int) (hr : 0 < rate) (hnow : 0 < now)
    (hk : 1 ≤ k) (hub : max now rate + k * rate < 2 ^ 63) :
    nextStep rate (max now rate + (k - 1) * rate) now =
      max now rate + k * rate := by
  have hM1 : now ≤ max now rate := le_max_left now rate
  have hM2 : rate ≤ max now rate := le_max_right now rate
  have hk0 : 0 ≤ (k - 1) * rate := mul_nonneg (by omega) hr.le
  have hkk : (k - 1) * rate + rate = k * rate := by ring
  have hkpos : rate ≤ k * rate := le_mul_of_one_le_left hr.le hk
  unfold nextStep
  by_cases h1 : now < max now rate + (k - 1) * rate
  · rw [if_pos h1,
      wrap64Id (max now rate + (k - 1) * rate + rate) (by omega) (by omega)]
    omega
  · rw [if_neg h1]
    have hstnow : max now rate + (k - 1) * rate = now := by omega
    have hsince : wrap64 (now - (max now rate + (k - 1) * rate)) = 0 := by
      rw [hstnow]
      simpa using wrap64Id (now - now) (by omega) (by omega)
    simp only [hsince]
    rw [if_pos (by omega : (0 : Int) < rate)]
    rw [wrap64Id (rate - 0) (by omega) (by omega)]
    rw [wrap64Id _ (by omega) (by omega)]
    omega

/-- callZeroAdmit: the first call on a fresh bucket admits with wait
max now rate - now and new state max now rate, whenever the capacity is
nonnegative. -/
theorem callZeroAdmit (rate cap now : Int) (hr : 0 < rate) (hnow : 0 < now)
    (hcap : 0 ≤ cap) (hub : max now rate + rate < 2 ^ 63) :
    nextCall rate cap 0 now = (max now rate - now, max now rate, true) := by
  have hM1 : now ≤ max now rate := le_max_left now rate
  have hMlt : max now rate < now + rate := max_lt (by omega) (by omega)
  unfold nextCall
  rw [nextStepZero rate now hr hnow hub]
  have hnext : wrap64 (max now rate - now) = max now rate - now :=
    wrap64Id _ (by omega) (by omega)
  simp only [hnext]
  have hq : goDiv (max now rate - now) rate = 0 := by
    have := ratioEq rate (max now rate - now) 0 hr (by omega) (by omega) le_rfl
    simpa using this
  rw [hq, if_pos hcap]

/-- callFromM: a later call, from the state reached after k fresh-bucket
calls, computes wait (max now rate - now) + k*rate and ratio k; it
admits and stores the advanced deadline iff k is within capacity, and
otherwise leaves the state unchanged. -/
theorem callFromM (rate cap now k : Int) (hr : 0 < rate) (hnow : 0 < now)
    (hk : 1 ≤ k) (hub : max now rate + k * rate < 2 ^ 63) :
    nextCall rate cap (max now rate + (k - 1) * rate) now =
      if k ≤ cap then
        ((max now rate - now) + k * rate, max now rate + k * rate, true)
      else
        ((max now rate - now) + k * rate, max now rate + (k - 1) * rate,
          false) := by
  have hM1 : now ≤ max now rate := le_max_left now rate
  have hMlt : max now rate < now + rate := max_lt (by omega) (by omega)
  have hk0 : 0 ≤ (k - 1) * rate := mul_nonneg (by omega) hr.le
  have hkpos : rate ≤ k * rate := le_mul_of_one_le_left hr.le hk
  unfold nextCall
  rw [nextStepFromM rate now k hr hnow hk hub]
  have hnext : wrap64 (max now rate + k * rate - now) =
      (max now rate - now) + k * rate := by
    rw [wrap64Id _ (by omega) (by omega)]
    ring
  simp only [hnext]
  have hq : goDiv ((max now rate - now) + k * rate) rate = k := by
    rw [show (max now rate - now) + k * rate = k * rate + (max now rate - now)
      from by ring]
    exact ratioEq rate (max now rate - now) k hr (by omega) (by omega)
      (by omega)
  rw [hq]

/-- statesForm: after n+1 calls on a fresh bucket (n within capacity),
the stored deadline is max now rate + n*rate. -/
theorem statesForm (rate now : Int) (capN : Nat) (hr : 0 < rate)
    (hnow : 0 < now) (hbound : now + ((capN : Int) + 2) * rate < 2 ^ 63) :
    ∀ n : Nat, n ≤ capN →
      bucketStates rate (capN : Int) now (n + 1) =
        max now rate + (n : Int) * rate := by
  have hub : ∀ k : Int, 0 ≤ k → k ≤ (capN : Int) + 1 →
      max now rate + k * rate < 2 ^ 63 := by
    intro k h0 h1
    have hM : max now rate ≤ now + rate := max_le (by omega) (by omega)
    have h2 : k * rate ≤ ((capN : Int) + 1) * rate :=
      mul_le_mul_of_nonneg_right h1 hr.le
    have h3 : now + rate + ((capN : Int) + 1) * rate =
        now + ((capN : Int) + 2) * rate := by ring
    omega
  intro n
  induction n with
  | zero =>
    intro _
    have h1 : max now rate + rate < 2 ^ 63 := by
      have := hub 1 (by omega) (by omega)
      omega
    have hz : bucketStates rate (capN : Int) now 0 = 0 := rfl
    have : bucketStates rate (capN : Int) now 1 =
        (nextCall rate (capN : Int) 0 now).2.1 := by
      simp [bucketStates]
    rw [this, callZeroAdmit rate (capN : Int) now hr hnow (by omega) h1]
    simp
  | succ n ih =>
    intro hle
    have hn : n ≤ capN := by omega
    have hprev := ih hn
    have hstep : bucketStates rate (capN : Int) now (n + 1 + 1) =
        (nextCall rate (capN : Int)
          (bucketStates rate (capN : Int) now (n + 1)) now).2.1 := by
      simp [bucketStates]
    rw [hstep, hprev]
    have hcall := callFromM rate (capN : Int) now ((n : Int) + 1) hr hnow
      (by omega) (hub ((n : Int) + 1) (by omega) (by omega))
    rw [show ((n : Int) + 1 - 1) = (n : Int) from by ring] at hcall
    rw [hcall, if_pos (by omega : (n : Int) + 1 ≤ (capN : Int))]
    push_cast
    ring

/-- scenarioOverflow: with rate 3s and capacity 3, from a stored deadline
12s past now, Next computes a 15s wait, reports the max-capacity error
and leaves the deadline untouched (the spec states the wait as the
interval (14s, 15s] to allow for the real clock advancing; in this
instant model it is the upper end, 15s exactly). -/
theorem scenarioOverflow (n2 : Int) (h0 : 0 < n2)
    (hb : n2 + 16000000000 < 2 ^ 63) :
    nextCall 3000000000 3 (n2 + 12000000000) n2 =
      (15000000000, n2 + 12000000000, false) := by
  have h1 : n2 < n2 + 12000000000 := by omega
  simp only [nextCall, nextStep]
  rw [if_pos h1]
  rw [wrap64Id (n2 + 12000000000 + 3000000000) (by omega) (by omega)]
  have hnext : wrap64 (n2 + 12000000000 + 3000000000 - n2) =
      (15000000000 : Int) := by
    rw [show n2 + 12000000000 + 3000000000 - n2 = (15000000000 : Int)
      from by ring]
    exact wrap64Id 15000000000 (by omega) (by omega)
  rw [hnext]
  have hd : goDiv 15000000000 3000000000 = 5 := by decide
  rw [hd]
  rw [if_neg (by omega : ¬ (5 : Int) ≤ 3)]

/-- Claim C2.  On a freshly created leaky bucket with positive rate and
capacity c >= 0, with the clock at a positive instant now and all calls
made at that same instant, the first c+1 calls of Next admit; the
(c+2)-th call returns the error marker, a strictly positive projected
wait of (max now rate - now) + (c+1)*rate, and leaves the stored
deadline unchanged.  The bound hypothesis keeps every int64 value of the
run inside the representable range.  The final conjunct is the concrete
overflow scenario of the spec (rate 3s, capacity 3, deadline now+12s). -/
theorem c2_leaky_bucket (rate now : Int) (capN : Nat) (hr : 0 < rate)
    (hnow : 0 < now) (hbound : now + ((capN : Int) + 2) * rate < 2 ^ 63) :
    (∀ j : Nat, j ≤ capN →
      (nextCall rate (capN : Int)
        (bucketStates rate (capN : Int) now j) now).2.2 = true) ∧
    (nextCall rate (capN : Int)
      (bucketStates rate (capN : Int) now (capN + 1)) now).2.2 = false ∧
    (nextCall rate (capN : Int)
      (bucketStates rate (capN : Int) now (capN + 1)) now).2.1 =
        bucketStates rate (capN : Int) now (capN + 1) ∧
    (nextCall rate (capN : Int)
      (bucketStates rate (capN : Int) now (capN + 1)) now).1 =
        (max now rate - now) + ((capN : Int) + 1) * rate ∧
    0 < (nextCall rate (capN : Int)
      (bucketStates rate (capN : Int) now (capN + 1)) now).1 ∧
    (∀ n2 : Int, 0 < n2 → n2 + 16000000000 < 2 ^ 63 →
      nextCall 3000000000 3 (n2 + 12000000000) n2 =
        (15000000000, n2 + 12000000000, false)) := by
  have hub : ∀ k : Int, 0 ≤ k → k ≤ (capN : Int) + 1 →
      max now rate + k * rate < 2 ^ 63 := by
    intro k h0 h1
    have hM : max now rate ≤ now + rate := max_le (by omega) (by omega)
    have h2 : k * rate ≤ ((capN : Int) + 1) * rate :=
      mul_le_mul_of_nonneg_right h1 hr.le
    have h3 : now + rate + ((capN : Int) + 1) * rate =
        now + ((capN : Int) + 2) * rate := by ring
    omega
  have hlast := statesForm rate now capN hr hnow hbound capN le_rfl
  have hcallLast := callFromM rate (capN : Int) now ((capN : Int) + 1) hr hnow
    (by omega) (hub ((capN : Int) + 1) (by omega) (by omega))
  rw [show ((capN : Int) + 1 - 1) = (capN : Int) from by ring] at hcallLast
  rw [if_neg (by omega : ¬ (capN : Int) + 1 ≤ (capN : Int))] at hcallLast
  have hMnow : 0 ≤ max now rate - now := by
    have := le_max_left now rate
    omega
  have hrpos : 0 < ((capN : Int) + 1) * rate :=
    mul_pos (by omega) hr
  refine ⟨?_, ?_, ?_, ?_, ?_, fun n2 a b => scenarioOverflow n2 a b⟩
  · intro j hj
    match j with
    | 0 =>
      have h1 : max now rate + rate < 2 ^ 63 := by
        have := hub 1 (by omega) (by omega)
        omega
      have hz : bucketStates rate (capN : Int) now 0 = 0 := rfl
      rw [hz, callZeroAdmit rate (capN : Int) now hr hnow (by omega) h1]
    | Nat.succ m =>
      have hm : m ≤ capN := by omega
      rw [statesForm rate now capN hr hnow hbound m hm]
      have hcall := callFromM rate (capN : Int) now ((m : Int) + 1) hr hnow
        (by omega) (hub ((m : Int) + 1) (by omega) (by omega))
      rw [show ((m : Int) + 1 - 1) = (m : Int) from by ring] at hcall
      rw [hcall, if_pos (by omega : (m : Int) + 1 ≤ (capN : Int))]
  · rw [hlast, hcallLast]
  · rw [hlast, hcallLast]
  · rw [hlast, hcallLast]
  · rw [hlast, hcallLast]
    omega

set_option maxRecDepth 8000 in
/-- Claim C2 (witness): the theorem at rate 3, capacity 2, instant 5: the
third call (j = 2) still admits, the fourth overflows with the stored
deadline unchanged, and the 3s/cap-3 scenario holds at instant 7. -/
theorem c2_leaky_bucket_witness :
    (nextCall 3 ((2 : Nat) : Int) (bucketStates 3 ((2 : Nat) : Int) 5 2) 5).2.2 = true ∧
    (nextCall 3 ((2 : Nat) : Int) (bucketStates 3 ((2 : Nat) : Int) 5 3) 5).2.2 = false ∧
    (nextCall 3 ((2 : Nat) : Int) (bucketStates 3 ((2 : Nat) : Int) 5 3) 5).2.1 =
      bucketStates 3 ((2 : Nat) : Int) 5 3 ∧
    nextCall 3000000000 3 (7 + 12000000000) 7 =
      (15000000000, 7 + 12000000000, false) := by
  have h := c2_leaky_bucket 3 5 2 (by omega) (by omega) (by omega)
  exact ⟨h.1 2 le_rfl, h.2.1, h.2.2.1, h.2.2.2.2.2 7 (by omega) (by omega)⟩

/-! The service pool round robin (pkg/services/services.go).  A service
is abstracted to the liveness flag its Target.IsAlive() returns; the
pool index is a uint64, modelled as a Nat reduced modulo 2^64 exactly
where Go wraps. -/

/-- U64 is the modulus of Go's uint64 arithmetic. -/
def U64 : Nat := 2 ^ 64

/-- SvcPool models servicePool: the atomic index and the services list,
each service reduced to its liveness flag. -/
structure SvcPool where
  Index : Nat
  Services : List Bool
deriving DecidableEq

/-- scanAlive is the loop of NextService: from position i, try cnt slots
in order, returning the first index (modulo the pool size) whose service
is alive. -/
def scanAlive (services : List Bool) (i : Nat) : Nat → Option Nat
  | 0 => none
  | cnt + 1 =>
    let idx := i % services.length
    if services.getD idx false then some idx
    else scanAlive services (i + 1) cnt

/-- NextService models servicePool.NextService together with the
NextIndex it calls first: the index is incremented (wrapping as uint64),
the scan starts at the incremented index modulo the pool size, and when
the winning slot is not the first scanned one its index is stored back.
Returns the chosen slot and the updated pool. -/
def NextService (pool : SvcPool) : Option Nat × SvcPool :=
  let ni := (pool.Index + 1) % U64
  let next := ni % pool.Services.length
  match scanAlive pool.Services next pool.Services.length with
  | some idx =>
    (some idx, ⟨if idx = next then ni else idx, pool.Services⟩)
  | none => (none, ⟨ni, pool.Services⟩)

/-- runPool returns the result of the (n+1)-th successive NextService
call on the pool (n = 0 gives the first call). -/
def runPool (pool : SvcPool) : Nat → Option Nat
  | 0 => (NextService pool).1
  | n + 1 => runPool (NextService pool).2 n

/-- aliveABC is the pool of claim C3: targets A, B, C where B is dead. -/
def aliveABC : List Bool := [true, false, true]

/-- stepA: when the traversal starts at slot 0 (stored index congruent
to 2 modulo 3), the call returns A (slot 0) and stores the incremented
index. -/
theorem stepA (i : Nat) (h1 : i % 3 = 2) (h2 : i + 1 < U64) :
    NextService ⟨i, aliveABC⟩ = (some 0, ⟨i + 1, aliveABC⟩) := by
  have hni : (i + 1) % U64 = i + 1 := Nat.mod_eq_of_lt h2
  have hnext : (i + 1) % 3 = 0 := by omega
  simp only [NextService, aliveABC, List.length_cons, List.length_nil, hni]
  norm_num [hnext, scanAlive]

/-- stepC: when the traversal starts at slot 1 (stored index congruent
to 0 modulo 3), the scan skips the dead B and returns C (slot 2),
storing index 2. -/
theorem stepC (j : Nat) (h1 : j % 3 = 0) (h2 : j + 1 < U64) :
    NextService ⟨j, aliveABC⟩ = (some 2, ⟨2, aliveABC⟩) := by
  have hni : (j + 1) % U64 = j + 1 := Nat.mod_eq_of_lt h2
  have hnext : (j + 1) % 3 = 1 := by omega
  simp only [NextService, aliveABC, List.length_cons, List.length_nil, hni]
  norm_num [hnext, scanAlive]

/-- cycleRun: from stored index 2 the pool alternates A (slot 0) and C
(slot 2) forever. -/
theorem cycleRun : ∀ n : Nat,
    runPool ⟨2, aliveABC⟩ n = some (if n % 2 = 0 then 0 else 2) := by
  intro n
  induction n using Nat.strong_induction_on with
  | _ n ih =>
    match n with
    | 0 => decide
    | 1 => decide
    | m + 2 =>
      have e1 : (NextService ⟨2, aliveABC⟩).2 = ⟨3, aliveABC⟩ := by decide
      have e2 : (NextService ⟨3, aliveABC⟩).2 = ⟨2, aliveABC⟩ := by decide
      have h2 : runPool ⟨2, aliveABC⟩ (m + 2) = runPool ⟨2, aliveABC⟩ m := by
        show runPool (NextService ⟨2, aliveABC⟩).2 (m + 1) =
          runPool ⟨2, aliveABC⟩ m
        rw [e1]
        show runPool (NextService ⟨3, aliveABC⟩).2 m = runPool ⟨2, aliveABC⟩ m
        rw [e2]
      rw [h2, ih m (by omega)]
      have hp : (m + 2) % 2 = m % 2 := by omega
      rw [hp]

/-- Claim C3.  For the pool A, B, C with B dead, successive NextService
calls whose first traversal starts at slot 0 (a stored index congruent
to 2 modulo 3, as after the fresh pool has wrapped to A) return A and C
alternately: the n-th call returns slot 0 for even n and slot 2 for odd
n, hence never B and never nil.  The bound keeps the uint64 index
increments of the first two calls from wrapping. -/
theorem c3_round_robin (i : Nat) (h1 : i % 3 = 2) (h2 : i + 2 < U64) :
    ∀ n : Nat,
      runPool ⟨i, aliveABC⟩ n = some (if n % 2 = 0 then 0 else 2) := by
  intro n
  have hA := stepA i h1 (by omega)
  match n with
  | 0 =>
    show (NextService ⟨i, aliveABC⟩).1 = _
    rw [hA]
    rfl
  | 1 =>
    show runPool (NextService ⟨i, aliveABC⟩).2 0 = _
    rw [hA]
    show (NextService ⟨i + 1, aliveABC⟩).1 = _
    rw [stepC (i + 1) (by omega) (by omega)]
    rfl
  | m + 2 =>
    show runPool (NextService ⟨i, aliveABC⟩).2 (m + 1) = _
    rw [hA]
    show runPool (NextService ⟨i + 1, aliveABC⟩).2 m = _
    rw [stepC (i + 1) (by omega) (by omega)]
    rw [cycleRun m]
    have hp : (m + 2) % 2 = m % 2 := by omega
    rw [hp]

/-- Claim C3 (witness): the theorem at the concrete start index 2; the
first two calls return A then C. -/
theorem c3_round_robin_witness :
    runPool ⟨2, aliveABC⟩ 0 = some 0 ∧ runPool ⟨2, aliveABC⟩ 1 = some 2 := by
  have h := c3_round_robin 2 (by decide) (by decide)
  exact ⟨h 0, h 1⟩

/-! The network pool target admission (pkg/networks/networks.go and the
transport table of pkg/targets).  strings.EqualFold and strings.ToLower
are modelled over ASCII, which covers every key of the table. -/

/-- ProtocolTransportsGet models a lookup in the targets
ProtocolTransports map (note: the map has no entry for ssh, although the
companion ProtocolPorts map lists it). -/
def ProtocolTransportsGet (s : GoStr) : Option (List GoStr) :=
  if s = "tcp".toList then some [ "tcp".toList ]
  else if s = "udp".toList then some [ "udp".toList ]
  else if s = "http".toList then some [ "tcp".toList ]
  else if s = "telnet".toList then some [ "tcp".toList ]
  else if s = "smtp".toList then some [ "tcp".toList ]
  else if s = "dns".toList then some [ "udp".toList, "tcp".toList ]
  else if s = "ntp".toList then some [ "udp".toList ]
  else if s = "ldap".toList then some [ "tcp".toList ]
  else if s = "https".toList then some [ "tcp".toList ]
  else if s = "ldaps".toList then some [ "tcp".toList ]
  else none

/-- GetTransport models targets.GetTransport. -/
def GetTransport (protocol : GoStr) : Option (List GoStr) :=
  ProtocolTransportsGet (goLower protocol)

/-- getTargetProtocol models networks.getTargetProtocol: accept tcp and
udp directly (case-insensitively, returning the protocol as given), and
otherwise take the first transport of the protocol's transport set; the
empty string signals an unsupported protocol. -/
def getTargetProtocol (targetProto : GoStr) : GoStr :=
  let proto :=
    if goEqFold targetProto ("tcp".toList) ||
        goEqFold targetProto ("udp".toList) then
      targetProto
    else []
  if proto = [] then
    match GetTransport targetProto with
    | some (p :: _) => p
    | _ => proto
  else proto

/-- AddRes is the outcome of networkPool.AddTarget: nil or one of its
three errors. -/
inductive AddRes
  | ok
  | unsupportedProtocol
  | missingHost
  | missingPort
deriving DecidableEq

/-- GoTarget abstracts a targets.Target to the three Get results that
AddTarget reads. -/
structure GoTarget where
  protocol : GoStr
  host : GoStr
  port : GoStr

/-- AddTarget models networkPool.AddTarget up to its first return: the
protocol is resolved first, then host and port are checked. -/
def AddTarget (t : GoTarget) : AddRes :=
  if getTargetProtocol t.protocol = [] then .unsupportedProtocol
  else if t.host = [] then .missingHost
  else if t.port = [] then .missingPort
  else .ok

/-- supportedProtos lists the protocols AddTarget accepts: tcp, udp, and
the application protocols of the transport table.  ssh is absent. -/
def supportedProtos : List GoStr :=
  [ "tcp".toList, "udp".toList, "http".toList, "telnet".toList,
    "smtp".toList, "dns".toList, "ntp".toList, "ldap".toList,
    "https".toList, "ldaps".toList ]

/-- getTargetProtocolSpec: protocol resolution succeeds exactly for the
protocols of supportedProtos (compared lower-cased). -/
theorem getTargetProtocolSpec (p : GoStr) :
    getTargetProtocol p ≠ [] ↔ goLower p ∈ supportedProtos := by
  have hlen : (goLower p).length = p.length := List.length_map _ _
  by_cases hcase : goLower p = "tcp".toList ∨ goLower p = "udp".toList
  · have hb : (goEqFold p ("tcp".toList) || goEqFold p ("udp".toList)) = true := by
      unfold goEqFold
      rcases hcase with h | h <;> rw [h] <;> decide
    have hne : p ≠ [] := by
      intro hp
      rw [hp] at hcase
      simp [goLower] at hcase
    have heq : getTargetProtocol p = p := by
      simp only [getTargetProtocol, hb, if_true]
      simp [hne]
    rw [heq]
    constructor
    · intro _
      rcases hcase with h | h <;> rw [h] <;> decide
    · intro _
      exact hne
  · have hb : (goEqFold p ("tcp".toList) || goEqFold p ("udp".toList)) = false := by
      rcases hb2 : (goEqFold p ("tcp".toList) || goEqFold p ("udp".toList)) with _ | _
      · rfl
      · exfalso
        apply hcase
        have hx := hb2
        unfold goEqFold at hx
        rcases Bool.or_eq_true_iff.mp hx with h | h
        · exact Or.inl (by
            have := (beq_iff_eq).mp h
            rw [this]
            decide)
        · exact Or.inr (by
            have := (beq_iff_eq).mp h
            rw [this]
            decide)
    have heq : getTargetProtocol p =
        (match ProtocolTransportsGet (goLower p) with
          | some (q :: _) => q
          | _ => ([] : GoStr)) := by
      simp only [getTargetProtocol, hb, Bool.false_eq_true, if_false, GetTransport]
      rfl
    rw [heq]
    by_cases hm : goLower p ∈ supportedProtos
    · have hmm := hm
      simp only [supportedProtos, List.mem_cons, List.not_mem_nil, or_false] at hmm
      rcases hmm with h | h | h | h | h | h | h | h | h | h
      · exact absurd (Or.inl h) hcase
      · exact absurd (Or.inr h) hcase
      all_goals rw [h]
      all_goals simp only [ProtocolTransportsGet]
      all_goals norm_num
      all_goals decide
    · have h1 : goLower p ≠ "tcp".toList := fun hh => hcase (Or.inl hh)
      have h2 : goLower p ≠ "udp".toList := fun hh => hcase (Or.inr hh)
      have h3 : goLower p ≠ "http".toList := fun hh => hm (by rw [hh]; decide)
      have h4 : goLower p ≠ "telnet".toList := fun hh => hm (by rw [hh]; decide)
      have h5 : goLower p ≠ "smtp".toList := fun hh => hm (by rw [hh]; decide)
      have h6 : goLower p ≠ "dns".toList := fun hh => hm (by rw [hh]; decide)
      have h7 : goLower p ≠ "ntp".toList := fun hh => hm (by rw [hh]; decide)
      have h8 : goLower p ≠ "ldap".toList := fun hh => hm (by rw [hh]; decide)
      have h9 : goLower p ≠ "https".toList := fun hh => hm (by rw [hh]; decide)
      have h10 : goLower p ≠ "ldaps".toList := fun hh => hm (by rw [hh]; decide)
      rw [ProtocolTransportsGet, if_neg h1, if_neg h2, if_neg h3, if_neg h4,
        if_neg h5, if_neg h6, if_neg h7, if_neg h8, if_neg h9, if_neg h10]
      simp [hm]

/-- Claim C9 (counterexample).  The claim lists ssh among the accepted
application protocols, but the ProtocolTransports table has no ssh entry
(only the port table does), so AddTarget rejects an ssh target with the
unsupported-protocol error even though its host and port are set. -/
theorem c9_addtarget_counterexample :
    AddTarget ⟨ "ssh".toList, "host".toList, "22".toList⟩ =
      AddRes.unsupportedProtocol := by
  decide

/-- Claim C9 (amended).  For a target with non-empty host and port,
AddTarget returns nil exactly when the lower-cased protocol is tcp, udp,
or one of the application protocols http, telnet, smtp, dns, ntp, ldap,
https, ldaps of the transport table (resolved to the first transport of
its set); ssh, though listed in the port table, has no transport entry
and is rejected.  Any other protocol yields the unsupported-protocol
error regardless of host and port, and an empty host or port never
yields nil. -/
theorem c9_addtarget_amended (t : GoTarget) :
    (t.host ≠ [] → t.port ≠ [] →
      (AddTarget t = AddRes.ok ↔ goLower t.protocol ∈ supportedProtos)) ∧
    (goLower t.protocol ∉ supportedProtos →
      AddTarget t = AddRes.unsupportedProtocol) ∧
    ((t.host = [] ∨ t.port = []) → AddTarget t ≠ AddRes.ok) := by
  refine ⟨?_, ?_, ?_⟩
  · intro hh hp
    constructor
    · intro hok
      by_contra hm
      have hres : getTargetProtocol t.protocol = [] := by
        by_contra hne
        exact hm ((getTargetProtocolSpec t.protocol).mp hne)
      rw [AddTarget, if_pos hres] at hok
      cases hok
    · intro hm
      have hne := (getTargetProtocolSpec t.protocol).mpr hm
      rw [AddTarget, if_neg hne, if_neg hh, if_neg hp]
  · intro hm
    have hres : getTargetProtocol t.protocol = [] := by
      by_contra hne
      exact hm ((getTargetProtocolSpec t.protocol).mp hne)
    rw [AddTarget, if_pos hres]
  · intro hor hok
    rcases hres : getTargetProtocol t.protocol with _ | _
    · rw [AddTarget, if_pos hres] at hok
      cases hok
    · rw [AddTarget, if_neg (by rw [hres]; intro h; cases h)] at hok
      rcases hor with h | h
      · rw [if_pos h] at hok
        cases hok
      · rcases hh : t.host with _ | _
        · rw [if_pos hh] at hok
          cases hok
        · rw [if_neg (by rw [hh]; intro hx; cases hx), if_pos h] at hok
          cases hok

/-- Claim C9 (witness): the amended theorem at a concrete http target
with host and port set, which is accepted. -/
theorem c9_addtarget_witness :
    AddTarget ⟨ "http".toList, "h".toList, "80".toList⟩ = AddRes.ok := by
  have h := c9_addtarget_amended ⟨ "http".toList, "h".toList, "80".toList⟩
  exact (h.1 (by decide) (by decide)).mpr (by decide)

/-! Claim C6: wildcard matching versus its specified semantics. -/

/-- GlobMatch is the wildcard-matching semantics of the spec: the
pattern character * matches zero or more characters, ? matches exactly
one character, and every other character matches itself.  Modelled from
the spec, to be compared with matchStrings. -/
inductive GlobMatch : List Char → List Char → Prop
  | nil : GlobMatch [] []
  | lit {c : Char} {p s : List Char} : c ≠ '*' → c ≠ '?' →
      GlobMatch p s → GlobMatch (c :: p) (c :: s)
  | one {c : Char} {p s : List Char} : GlobMatch p s →
      GlobMatch ( '?' :: p) (c :: s)
  | starNil {p s : List Char} : GlobMatch p s → GlobMatch ( '*' :: p) s
  | starCons {c : Char} {p s : List Char} : GlobMatch ( '*' :: p) s →
      GlobMatch ( '*' :: p) (c :: s)

/-- globStarAll: the lone star matches everything. -/
theorem globStarAll : ∀ s : List Char, GlobMatch [ '*' ] s := by
  intro s
  induction s with
  | nil => exact .starNil .nil
  | cons a ss ih => exact .starCons ih

/-- globNilIff: the empty pattern matches only the empty string. -/
theorem globNilIff (s : List Char) : GlobMatch [] s ↔ s = [] := by
  constructor
  · intro h
    cases h
    rfl
  · intro h
    rw [h]
    exact .nil

/-- starCollapse: doubling a star does not change the language. -/
theorem starCollapse (p : List Char) :
    ∀ s, GlobMatch ( '*' :: '*' :: p) s ↔ GlobMatch ( '*' :: p) s := by
  intro s
  induction s with
  | nil =>
    constructor
    · intro h
      cases h with
      | starNil h2 => exact h2
    · intro h
      exact .starNil h
  | cons a ss ih =>
    constructor
    · intro h
      cases h with
      | lit h1 h2 h3 => exact absurd rfl h1
      | starNil h2 => exact h2
      | starCons h2 => exact .starCons (ih.mp h2)
    · intro h
      exact .starNil h

/-- globCongrMp: a pattern-tail transformation valid on every string
stays valid under a common head character. -/
theorem globCongrMp (p1 p2 : List Char)
    (H : ∀ s, GlobMatch p1 s → GlobMatch p2 s) (c : Char) :
    ∀ s, GlobMatch (c :: p1) s → GlobMatch (c :: p2) s := by
  intro s
  induction s with
  | nil =>
    intro h
    cases h with
    | starNil h2 => exact .starNil (H _ h2)
  | cons a ss ih =>
    intro h
    cases h with
    | lit h1 h2 h3 => exact .lit h1 h2 (H _ h3)
    | one h3 => exact .one (H _ h3)
    | starNil h2 => exact .starNil (H _ h2)
    | starCons h2 => exact .starCons (ih h2)

/-- globCongr: languages of pattern tails transfer across a common head. -/
theorem globCongr (p1 p2 : List Char)
    (H : ∀ s, GlobMatch p1 s ↔ GlobMatch p2 s) (c : Char) :
    ∀ s, GlobMatch (c :: p1) s ↔ GlobMatch (c :: p2) s := by
  intro s
  exact ⟨globCongrMp p1 p2 (fun t => (H t).mp) c s,
    globCongrMp p2 p1 (fun t => (H t).mpr) c s⟩

/-- globRmAux: removing repeated stars after a fixed head character
preserves the language. -/
theorem globRmAux : ∀ (p : List Char) (r : Char) (s : List Char),
    GlobMatch (r :: rmRepeatAux '*' p r) s ↔ GlobMatch (r :: p) s := by
  intro p
  induction p with
  | nil => intro r s; exact Iff.rfl
  | cons x xs ih =>
    intro r s
    by_cases hkeep : ((x != r || r != '*') || x == Char.ofNat 0) = true
    · have hstep : rmRepeatAux '*' (x :: xs) r = x :: rmRepeatAux '*' xs x := by
        simp only [rmRepeatAux, hkeep, if_true]
      rw [hstep]
      exact globCongr (x :: rmRepeatAux '*' xs x) (x :: xs)
        (fun t => ih x t) r s
    · have hkeepF : ((x != r || r != '*') || x == Char.ofNat 0) = false := by
        rcases hb : ((x != r || r != '*') || x == Char.ofNat 0) with _ | _
        · rfl
        · exact absurd hb hkeep
      have hx : x = r ∧ r = '*' := by
        simp only [Bool.or_eq_false_iff, bne_eq_false_iff_eq] at hkeepF
        exact ⟨hkeepF.1.1, hkeepF.1.2⟩
      have hstep : rmRepeatAux '*' (x :: xs) r = rmRepeatAux '*' xs r := by
        simp only [rmRepeatAux, hkeepF, Bool.false_eq_true, if_false]
      rw [hstep]
      rw [ih r s]
      rcases hx with ⟨hxr, hrs⟩
      rw [hxr, hrs]
      exact (starCollapse xs s).symm

/-- globRm: the wildcard collapse of the pattern preserves the
language. -/
theorem globRm (p : List Char) :
    ∀ s, GlobMatch (rmRepeatRune p '*') s ↔ GlobMatch p s := by
  intro s
  cases p with
  | nil => exact Iff.rfl
  | cons x xs =>
    have hstep : rmRepeatRune (x :: xs) '*' = x :: rmRepeatAux '*' xs x := by
      simp only [rmRepeatRune, rmRepeatAux]
      rw [if_pos]
      simp
    rw [hstep]
    exact globRmAux xs x s

/-- noStarPair recognises patterns without adjacent stars (the image of
the wildcard collapse). -/
def noStarPair : List Char → Bool
  | [] => true
  | [_] => true
  | a :: b :: t => !(a == '*' && b == '*') && noStarPair (b :: t)

/-- noStarPairTail: the property passes to tails. -/
theorem noStarPairTail (c : Char) (p : List Char)
    (h : noStarPair (c :: p) = true) : noStarPair p = true := by
  cases p with
  | nil => rfl
  | cons d ds =>
    have := h
    simp only [noStarPair, Bool.and_eq_true] at this
    exact this.2

/-- rmAuxCollapsed: the collapse leaves no adjacent stars, whatever the
preceding character. -/
theorem rmAuxCollapsed : ∀ (p : List Char) (r : Char),
    noStarPair (r :: rmRepeatAux '*' p r) = true := by
  intro p
  induction p with
  | nil => intro r; rfl
  | cons x xs ih =>
    intro r
    by_cases hkeep : ((x != r || r != '*') || x == Char.ofNat 0) = true
    · have hstep : rmRepeatAux '*' (x :: xs) r = x :: rmRepeatAux '*' xs x := by
        simp only [rmRepeatAux, hkeep, if_true]
      rw [hstep]
      have hpair : (!(r == '*' && x == '*')) = true := by
        rcases hb : (r == '*' && x == '*') with _ | _
        · rfl
        · exfalso
          simp only [Bool.and_eq_true, beq_iff_eq] at hb
          rcases hb with ⟨hr, hx⟩
          rw [hr, hx] at hkeep
          simp at hkeep
      show (!(r == '*' && x == '*') && noStarPair (x :: rmRepeatAux '*' xs x)) = true
      rw [hpair, ih x]
      rfl
    · have hkeepF : ((x != r || r != '*') || x == Char.ofNat 0) = false := by
        rcases hb : ((x != r || r != '*') || x == Char.ofNat 0) with _ | _
        · rfl
        · exact absurd hb hkeep
      have hstep : rmRepeatAux '*' (x :: xs) r = rmRepeatAux '*' xs r := by
        simp only [rmRepeatAux, hkeepF, Bool.false_eq_true, if_false]
      rw [hstep]
      exact ih r

/-- rmCollapsed: collapsed patterns have no adjacent stars. -/
theorem rmCollapsed (p : List Char) :
    noStarPair (rmRepeatRune p '*') = true := by
  cases p with
  | nil => rfl
  | cons x xs =>
    have hstep : rmRepeatRune (x :: xs) '*' = x :: rmRepeatAux '*' xs x := by
      simp only [rmRepeatRune, rmRepeatAux]
      rw [if_pos]
      simp
    rw [hstep]
    exact rmAuxCollapsed xs x

/-- boolNotTrue turns a refuted Bool equation into the false equation. -/
theorem boolNotTrue {b : Bool} (h : ¬ b = true) : b = false := by
  rcases hb : b with _ | _
  · rfl
  · exact absurd hb h

/-- matchCoreIff: on patterns without adjacent stars (the collapse
image) and strings without a literal star, the matchStrings recursion
decides exactly the wildcard semantics of the spec. -/
theorem matchCoreIff : ∀ (n : Nat) (p s : List Char),
    p.length + s.length ≤ n → noStarPair p = true → '*' ∉ s →
    (matchCore p s = true ↔ GlobMatch p s) := by
  intro n
  induction n using Nat.strong_induction_on with
  | _ n ih =>
    intro p s hlen hcol hstar
    by_cases hp1 : p = [ '*' ]
    · subst hp1
      have hmc : matchCore [ '*' ] s = true := by
        rw [matchCore.eq_def]
        simp
      rw [hmc]
      exact ⟨fun _ => globStarAll s, fun _ => rfl⟩
    · cases p with
      | nil =>
        have hmc : matchCore [] s = s.isEmpty := by
          rw [matchCore.eq_def]
          simp
        rw [hmc, globNilIff]
        simp
      | cons c ps =>
        cases s with
        | nil =>
          have hmc : matchCore (c :: ps) [] = false := by
            rw [matchCore.eq_def]
            simp [hp1]
          rw [hmc]
          refine ⟨fun h => absurd h (by simp), fun h2 => ?_⟩
          exfalso
          cases h2 with
          | starNil h3 =>
            cases ps with
            | nil => exact hp1 rfl
            | cons d ts =>
              cases h3 with
              | starNil h4 => simp [noStarPair] at hcol
        | cons a ss =>
          have hastar : a ≠ '*' := by
            intro h
            apply hstar
            rw [h]
            exact List.mem_cons_self _ _
          have hstarss : '*' ∉ ss := fun h => hstar (List.mem_cons_of_mem a h)
          have hlen2 : ps.length + ss.length + 2 ≤ n := by
            simp only [List.length_cons] at hlen
            omega
          by_cases hq : (c == '?' || c == a) = true
          · have hmc : matchCore (c :: ps) (a :: ss) = matchCore ps ss := by
              rw [matchCore.eq_def]
              simp [hp1, hq]
            have hih := ih (ps.length + ss.length) (by omega) ps ss le_rfl
              (noStarPairTail c ps hcol) hstarss
            rw [hmc, hih]
            rcases hq2 : (c == '?') with _ | _
            · have hca : c = a := by
                rcases Bool.or_eq_true_iff.mp hq with h | h
                · rw [hq2] at h
                  cases h
                · exact beq_iff_eq.mp h
              subst hca
              have hcq : c ≠ '?' := by
                intro h
                rw [h] at hq2
                simp at hq2
              constructor
              · intro h3
                exact .lit hastar hcq h3
              · intro h3
                cases h3 with
                | lit h4 h5 h6 => exact h6
                | one h6 => exact absurd rfl hcq
                | starNil h6 => exact absurd rfl hastar
                | starCons h6 => exact absurd rfl hastar
            · have hc : c = '?' := beq_iff_eq.mp hq2
              subst hc
              constructor
              · intro h3
                exact .one h3
              · intro h3
                cases h3 with
                | lit h4 h5 h6 => exact absurd rfl h5
                | one h6 => exact h6
          · have hqF : (c == '?' || c == a) = false := boolNotTrue hq
            by_cases hc : (c == '*') = true
            · have hcs : c = '*' := beq_iff_eq.mp hc
              subst hcs
              have hsa : ¬ ( '*' = a) := fun h => hastar h.symm
              have hmc : matchCore ( '*' :: ps) (a :: ss) =
                  (matchCore ps (a :: ss) || matchCore ( '*' :: ps) ss) := by
                rw [matchCore.eq_def]
                simp [hp1, hqF, hsa]
              have ih1 := ih (ps.length + (a :: ss).length) (by
                  simp only [List.length_cons]
                  omega) ps (a :: ss) le_rfl
                (noStarPairTail _ ps hcol) hstar
              have ih2 := ih (( '*' :: ps).length + ss.length) (by
                  simp only [List.length_cons]
                  omega) ( '*' :: ps) ss le_rfl hcol hstarss
              rw [hmc, Bool.or_eq_true, ih1, ih2]
              constructor
              · rintro (h3 | h3)
                · exact .starNil h3
                · exact .starCons h3
              · intro h3
                cases h3 with
                | lit h4 h5 h6 => exact absurd rfl h4
                | starNil h6 => exact Or.inl h6
                | starCons h6 => exact Or.inr h6
            · have hcF : (c == '*') = false := boolNotTrue hc
              have hmc : matchCore (c :: ps) (a :: ss) = false := by
                rw [matchCore.eq_def]
                simp [hp1, hqF, hcF]
              rw [hmc]
              refine ⟨fun h => absurd h (by simp), fun h3 => ?_⟩
              exfalso
              cases h3 with
              | lit h4 h5 h6 => simp at hqF
              | one h6 => simp at hqF
              | starNil h6 => simp at hcF
              | starCons h6 => simp at hcF

/-- Claim C6 (amended).  On strings that do not contain a literal star,
matchStrings decides exactly the specified wildcard semantics: * matches
zero or more characters and ? exactly one.  (When the matched string
holds a literal * aligned against a pattern *, the code consumes it as a
single literal character instead, see the counterexample.)  The two
concrete examples of the claim hold. -/
theorem c6_wildcard_amended :
    (∀ p s : List Char, '*' ∉ s →
      (matchStrings p s = true ↔ GlobMatch p s)) ∧
    matchStrings ("/user*/log??".toList) ("/users/login".toList) = true ∧
    matchStrings ("*hello".toList) ("helloworld".toList) = false := by
  refine ⟨?_, ?_, ?_⟩
  · intro p s hstar
    have h := matchCoreIff ((rmRepeatRune p '*').length + s.length)
      (rmRepeatRune p '*') s le_rfl (rmCollapsed p) hstar
    have hms : matchStrings p s = matchCore (rmRepeatRune p '*') s := rfl
    rw [hms, h]
    exact globRm p s
  · simp [matchStrings, matchCore, rmRepeatRune, rmRepeatAux]
  · simp [matchStrings, matchCore, rmRepeatRune, rmRepeatAux]

/-- Claim C6 (counterexample).  Under the claimed semantics the pattern
*c matches the string *ac (the star matches the two characters *a), but
matchStrings returns false: when the pattern star is aligned against a
literal star in the string, the first-character branch consumes the star
as a single literal character. -/
theorem c6_wildcard_counterexample :
    matchStrings ("*c".toList) ("*ac".toList) = false ∧
    GlobMatch ("*c".toList) ("*ac".toList) := by
  constructor
  · simp [matchStrings, matchCore, rmRepeatRune, rmRepeatAux]
  · exact .starCons (.starCons (.starNil
      (.lit (by decide) (by decide) .nil)))

/-- Claim C6 (witness): the amended equivalence applied to the concrete
pattern and path of the claim, transporting the computed match into the
specified semantics. -/
theorem c6_wildcard_witness :
    GlobMatch ("/user*/log??".toList) ("/users/login".toList) :=
  (c6_wildcard_amended.1 ("/user*/log??".toList) ("/users/login".toList)
    (by decide)).mp c6_wildcard_amended.2.1
